import Mathlib

/-!
Shallow embedding of the site build pipeline of `src/site.rs` (the
`gutenberg`/zola static site generator core), together with theorems
settling the specification claims about it.

Modelling conventions, used throughout:

* Rust `PathBuf` values are modelled as lists of path components
  (`FsPath := List String`); `path.parent()` is `List.dropLast`,
  `path.file_name()` is the last component.
* `HashMap<K, V>` values are modelled as association lists
  `List (K × V)` whose order records the map's iteration order (which in
  Rust is arbitrary): `insert` is an in-place upsert, `entry(..).or_insert`
  pushes onto an existing binding or appends a fresh one.  The
  `BTreeMap` of sections is modelled the same way; none of the claims
  below depends on its key-sorted iteration order.
* Rust's `sort_by` is a stable sort; it is modelled by a stable
  insertion sort with the same comparator (the stably-sorted permutation
  of a list is unique, so the choice of stable algorithm is immaterial).
* External collaborators (the Tera template engine, the content parser
  `Page::from_file` / `Section::from_file` in files not under `src/`,
  the `slug` crate) appear only through their interface; where their
  behaviour decides a claim they are modelled from the spec, and marked
  as such in their doc comments.
-/

set_option autoImplicit false

namespace Gutenberg

/-- A filesystem path, as its list of components. -/
abbrev FsPath := List String

/-! ### Association-list models of `HashMap` / `BTreeMap` -/

variable {K : Type} {V : Type}

/-- `HashMap::insert` / `BTreeMap::insert`: replace the binding of `k`
if present, otherwise append a fresh binding. -/
def mapInsert [DecidableEq K] (m : List (K × V)) (k : K) (v : V) : List (K × V) :=
  match m with
  | [] => [(k, v)]
  | (k', v') :: rest => if k' = k then (k, v) :: rest else (k', v') :: mapInsert rest k v

/-- `HashMap::contains_key`. -/
def mapContains [DecidableEq K] (m : List (K × V)) (k : K) : Bool :=
  match m with
  | [] => false
  | (k', _) :: rest => if k' = k then true else mapContains rest k

/-- `get_mut` followed by an update of the value in place. -/
def mapModify [DecidableEq K] (m : List (K × V)) (k : K) (f : V → V) : List (K × V) :=
  match m with
  | [] => []
  | (k', v') :: rest => if k' = k then (k', f v') :: rest else (k', v') :: mapModify rest k f

/-- `HashMap::get` as a total lookup. -/
def mapFind [DecidableEq K] (m : List (K × V)) (k : K) : Option V :=
  match m with
  | [] => none
  | (k', v') :: rest => if k' = k then some v' else mapFind rest k

/-- `map.entry(k).or_insert_with(|| vec![]).push(x)`: push `x` onto the
vector bound to `k`, creating the binding if absent. -/
def entryPush [DecidableEq K] (m : List (K × List V)) (k : K) (x : V) : List (K × List V) :=
  match m with
  | [] => [(k, [x])]
  | (k', v) :: rest => if k' = k then (k', v ++ [x]) :: rest else (k', v) :: entryPush rest k x

/-- Lookup of the vector bound to `k`, defaulting to the empty vector. -/
def lookupD [DecidableEq K] (m : List (K × List V)) (k : K) : List V :=
  match m with
  | [] => []
  | (k', v) :: rest => if k' = k then v else lookupD rest k

/-! ### Document model -/

/-- Front-matter metadata of a page, as consumed by the pipeline
(`title`, optional `date`, optional `category`, optional `tags`).
Dates are modelled as naturals: the pipeline only compares them. -/
structure FrontMatter where
  title : String
  date : Option Nat
  category : Option String
  tags : Option (List String)
deriving DecidableEq

/-- A `Page` as produced by the content parser: source identity, parsed
metadata, derived url and colocated assets. -/
structure Page where
  file_path : FsPath
  parent_path : FsPath
  meta : FrontMatter
  url : String
  assets : List FsPath
deriving DecidableEq

/-- Modelled from the spec: the Page ordering (`Page::partial_cmp`
lives in `page.rs`, which is not under `src/`): pages compare by date
descending with undated pages last, then by title. -/
def pageCmp (a b : Page) : Ordering :=
  match a.meta.date, b.meta.date with
  | some d1, some d2 =>
    match compare d2 d1 with
    | Ordering.eq => compare a.meta.title b.meta.title
    | o => o
  | some _, none => Ordering.lt
  | none, some _ => Ordering.gt
  | none, none => compare a.meta.title b.meta.title

/-- `a` may be placed before `b` by the stable sort
`sort_by(|a, b| a.partial_cmp(b).unwrap())`. -/
def pageLe (a b : Page) : Bool := pageCmp a b ≠ Ordering.gt

/-! ### Stable insertion sort (model of Rust's stable `sort_by`) -/

/-- Insert `x` (an element coming earlier in the input than everything
in the already-sorted list) before the first element it may precede. -/
def insertLe {α : Type} (le : α → α → Bool) (x : α) : List α → List α
  | [] => [x]
  | y :: ys => if le x y then x :: y :: ys else y :: insertLe le x ys

/-- Stable insertion sort with comparator `le`. -/
def sortLe {α : Type} (le : α → α → Bool) : List α → List α
  | [] => []
  | x :: xs => insertLe le x (sortLe le xs)

/-! ### Sections -/

/-- A section as returned by the content parser (`Section::from_file`,
not under `src/`, modelled from the spec): its own index file, the
directory it represents, the path components used for output placement,
and its (initially empty) list of child pages.  Subsections are not part
of the parsed value; they are derived during `parse`. -/
structure SectionData where
  file_path : FsPath
  parent_path : FsPath
  components : List String
  pages : List Page
deriving DecidableEq

/-- A `Section` held in `Site::sections`: the parsed data plus the
derived direct subsections.  In `parse` the subsection clones are taken
before any subsection linking happens, so the nested sections never
carry subsections of their own; `SectionData` captures them exactly. -/
structure Section where
  file_path : FsPath
  parent_path : FsPath
  components : List String
  pages : List Page
  subsections : List SectionData
deriving DecidableEq

/-- View of a section as the cloneable parsed data (used when cloning a
section into `grandparent_paths` before subsection linking). -/
def Section.toData (s : Section) : SectionData :=
  { file_path := s.file_path, parent_path := s.parent_path,
    components := s.components, pages := s.pages }

/-- Promote parsed section data to a stored section with no subsections
yet. -/
def SectionData.toSection (s : SectionData) : Section :=
  { file_path := s.file_path, parent_path := s.parent_path,
    components := s.components, pages := s.pages, subsections := [] }

/-! ### Configuration and the Site aggregate -/

/-- Modelled from the spec: the configuration values the pipeline reads.
The spec requires the three toggles to be resolvable to booleans at load
time (absence is a load-time error), so they are plain `Bool` here. -/
structure Config where
  base_url : String
  generate_categories_pages : Bool
  generate_tags_pages : Bool
  generate_rss : Bool
deriving DecidableEq

/-- The `Site` aggregate of `site.rs`, without the fields that belong to
external collaborators (`base_path`, the Tera template set). -/
structure Site where
  config : Config
  pages : List (FsPath × Page)
  sections : List (FsPath × Section)
  live_reload : Bool
  output_path : FsPath
  tags : List (String × List FsPath)
  categories : List (String × List FsPath)
deriving DecidableEq

/-- `Site::new`: empty collections, live reload off, output path
`public`. -/
def Site.new (config : Config) : Site :=
  { config := config, pages := [], sections := [], live_reload := false,
    output_path := ["public"], tags := [], categories := [] }

/-! ### Content entries (the glob result fed to `parse`) -/

/-- One content file found by the glob, together with what the external
content parser returns for it.  Modelled from the spec: `Page::from_file`
and `Section::from_file` are not under `src/`; they return a parsed
document or a parse error, and the error names the offending file. -/
structure Entry where
  path : FsPath
  asSection : Option SectionData
  asPage : Option Page
deriving DecidableEq

/-- The last path component, i.e. `path.file_name()`. -/
def fileNameOf (p : FsPath) : String := p.getLastD ""

/-- Modelled from the spec: the descriptive parse error for a content
file names the offending file. -/
def parseError (e : Entry) : String := "Error parsing " ++ String.intercalate "/" e.path

/-- The per-entry loop of `Site::parse`: dispatch on the file name,
insert sections into the local section map, push pages onto their
section and insert them into `self.pages`.  On a parse error the loop
stops; `self.pages` keeps the insertions already made, and the local
section map is discarded by the caller. -/
def parseLoop (site : Site) (secs : List (FsPath × SectionData)) :
    List Entry → Site × List (FsPath × SectionData) × Option String
  | [] => (site, secs, none)
  | e :: rest =>
    if fileNameOf e.path = "_index.md" then
      match e.asSection with
      | none => (site, secs, some (parseError e))
      | some s => parseLoop site (mapInsert secs s.parent_path s) rest
    else
      match e.asPage with
      | none => (site, secs, some (parseError e))
      | some p =>
        let secs' := if mapContains secs p.parent_path
          then mapModify secs p.parent_path (fun s => { s with pages := s.pages ++ [p] })
          else secs
        parseLoop { site with pages := mapInsert site.pages p.file_path p } secs' rest

/-- The contribution of one page to the tag and category indices
(the body of the loop in `Site::parse_tags_and_categories`). -/
def indexPage (site : Site) (p : Page) : Site :=
  let site :=
    match p.meta.category with
    | some category => { site with categories := entryPush site.categories category p.file_path }
    | none => site
  match p.meta.tags with
  | some tags => { site with tags := tags.foldl (fun m tag => entryPush m tag p.file_path) site.tags }
  | none => site

/-- `Site::parse_tags_and_categories`: one pass over `self.pages`,
pushing each page's identity under its category key and each of its tag
keys.  Note that it appends to whatever `self.tags` / `self.categories`
already hold. -/
def Site.parse_tags_and_categories (site : Site) : Site :=
  (site.pages.map Prod.snd).foldl indexPage site

/-- `grandparent_paths`: group the section clones by the parent of their
`parent_path` (first-encounter order standing in for map iteration
order). -/
def grandparentPaths (secs : List (FsPath × Section)) : List (FsPath × List SectionData) :=
  secs.foldl (fun m kv => entryPush m kv.1.dropLast kv.2.toData) []

/-- The post-loop phase of `Site::parse`: sort each section's pages and
extend its subsections with the clones grouped under its path. -/
def linkSections (secs : List (FsPath × Section)) : List (FsPath × Section) :=
  let gp := grandparentPaths secs
  secs.map (fun kv =>
    let s := kv.2
    let s := { s with pages := sortLe pageLe s.pages }
    match mapFind gp kv.1 with
    | some paths => (kv.1, { s with subsections := s.subsections ++ paths })
    | none => (kv.1, s))

/-- `Site::parse`: run the entry loop; on success sort and link the
freshly built section map, assign it to `self.sections`, and rebuild
the tag/category indices on top of the existing ones.  On failure the
error is returned; `self.sections`, `self.tags` and `self.categories`
are untouched, while `self.pages` keeps the pages inserted before the
failure. -/
def Site.parse (site : Site) (entries : List Entry) : Site × Option String :=
  match parseLoop site [] entries with
  | (site', _, some msg) => (site', some msg)
  | (site', secs, none) =>
    let secs := linkSections (secs.map (fun kv => (kv.1, kv.2.toSection)))
    let site' := { site' with sections := secs }
    (site'.parse_tags_and_categories, none)

/-! ### Listing overview (`render_categories_and_tags`) -/

/-- Modelled from the spec: the external `slug` crate's slugification.
None of the claims depends on its output, so it is the identity here. -/
def slugify (s : String) : String := s

/-- A tag or category item of the overview listing. -/
structure ListItem where
  name : String
  slug : String
  count : Nat
deriving DecidableEq

/-- `ListItem::new`. -/
def ListItem.new (name : String) (count : Nat) : ListItem :=
  { name := name, slug := slugify name, count := count }

/-- `a` may be placed before `b` by the stable sort
`sort_by(|a, b| b.count.cmp(&a.count))` (descending by count). -/
def countGe (a b : ListItem) : Bool := decide (b.count ≤ a.count)

/-- The overview listing computed by `render_categories_and_tags`: each
binding of the tag/category map — in the map's iteration order — becomes
a `ListItem` with the membership count, and the vector is stable-sorted
by descending count. -/
def overviewItems (items : List (String × List FsPath)) : List ListItem :=
  sortLe countGe (items.map (fun kv => ListItem.new kv.1 kv.2.length))

/-! ### RSS feed (`render_rss_feed`) -/

/-- `base_url.ends_with('/')`. -/
def endsWithSlash (s : String) : Bool := decide (s.data.getLast? = some '/')

/-- The feed URL computed by `render_rss_feed`. -/
def rssFeedUrl (base_url : String) : String :=
  if endsWithSlash base_url then base_url ++ "feed.xml"
  else base_url ++ "/" ++ "feed.xml"

/-- What `render_rss_feed` hands to the template and writes: the file it
creates, the advertised feed URL, the selected pages and the last build
date. -/
structure FeedOutput where
  file_path : FsPath
  feed_url : String
  pages : List Page
  last_build_date : Option Nat
deriving DecidableEq

/-- `Site::render_rss_feed`: filter the pages (in map iteration order)
down to those with a date, `take(15)`, skip the feed if none remain,
otherwise sort the selection and emit `rss.xml` under the output path
with `last_build_date` taken from the first sorted page. -/
def Site.render_rss_feed (site : Site) : Option FeedOutput :=
  let pages := ((site.pages.map Prod.snd).filter (fun p => p.meta.date.isSome)).take 15
  if pages.isEmpty then none
  else
    let pages := sortLe pageLe pages
    some { file_path := site.output_path ++ ["rss.xml"],
           feed_url := rssFeedUrl site.config.base_url,
           pages := pages,
           last_build_date := match pages.head? with
             | some p => p.meta.date
             | none => none }

/-- The feed selection as the spec words it: only dated pages are
eligible, and the feed holds at most the 15 most-recently-dated of them
(sorted by the Page ordering, date descending). -/
def specFeedPages (pages : List Page) : List Page :=
  (sortLe pageLe (pages.filter (fun p => p.meta.date.isSome))).take 15

/-! ### Live reload injection (`inject_livereload`) -/

/-- `String::replace`: replace every (leftmost, non-overlapping)
occurrence of `pat` by `repl`.  The guard on `pat ≠ []` keeps the
function total; the pipeline only uses a non-empty pattern. -/
def replaceAll (pat repl : List Char) : List Char → List Char
  | [] => []
  | c :: rest =>
    if h : pat ≠ [] ∧ pat.isPrefixOf (c :: rest) = true then
      repl ++ replaceAll pat repl ((c :: rest).drop pat.length)
    else
      c :: replaceAll pat repl rest
termination_by l => l.length
decreasing_by
  · simp only [List.length_drop, List.length_cons]
    have hpos : 0 < pat.length := List.length_pos.mpr h.1
    omega
  · simp

/-- The fixed script tag injected in live-reload mode. -/
def liveReloadTag : List Char :=
  "<script src=\"/livereload.js?port=1112&mindelay=10\"></script>".data

/-- The closing body marker. -/
def bodyCloseTag : List Char := "</body>".data

/-- `Site::inject_livereload`: in live-reload mode, replace `</body>`
with the script tag followed by `</body>`; otherwise return the html
unchanged. -/
def inject_livereload (live_reload : Bool) (html : List Char) : List Char :=
  if live_reload then replaceAll bodyCloseTag (liveReloadTag ++ bodyCloseTag) html
  else html

/-! ### Output tree: `clean`, `build`, `copy_static_directory`

Two filesystem views are used.  For the whole-`build` round trip (which
only asks which files exist) the output tree is the list of existing
file paths.  For the static-copy frame property (which also speaks of
directories and overwriting) a richer tree with file contents and a
directory set is used. -/

/-- The set of existing files, as a list of paths. -/
abbrev Fs := List FsPath

/-- `create_file` / `copy`: the file at `p` now exists (contents are
irrelevant to which files exist, so they are not tracked here). -/
def fsAdd (p : FsPath) (fs : Fs) : Fs := p :: fs

/-- Is `p` inside the directory `d`? -/
def underDir (d : FsPath) (p : FsPath) : Bool := d.isPrefixOf p

/-- `Site::clean`: `remove_dir_all("public")` — every file under the
literal `public` directory is removed.  Note the hardcoded path: `clean`
does not consult `self.output_path`. -/
def Site.clean (_site : Site) (fs : Fs) : Fs :=
  fs.filter (fun p => !underDir ["public"] p)

/-- The files `build_pages` writes for one page: the rendered
`index.html` under the page's url components, plus its colocated
assets. -/
def pageWrites (output_path : FsPath) (p : Page) : List FsPath :=
  (output_path ++ p.url.splitOn "/" ++ ["index.html"]) ::
    p.assets.map (fun a => output_path ++ p.url.splitOn "/" ++ [fileNameOf a])

/-- The files `render_categories_and_tags` writes: the overview
`index.html` and one `index.html` per item slug.  (Callers skip the
call entirely when the map is empty.) -/
def listingWrites (output_path : FsPath) (name : String)
    (items : List (String × List FsPath)) : List FsPath :=
  (output_path ++ [name, "index.html"]) ::
    items.map (fun kv => output_path ++ [name, slugify kv.1, "index.html"])

/-- The files written by `Site::build_pages`: every page's output, the
two listing families when their toggle is on and their map non-empty,
and the site index. -/
def Site.build_pages_writes (site : Site) : List FsPath :=
  ((site.pages.map Prod.snd).flatMap (pageWrites site.output_path))
    ++ (if site.config.generate_categories_pages ∧ site.categories ≠ [] then
          listingWrites site.output_path "categories" site.categories
        else [])
    ++ (if site.config.generate_tags_pages ∧ site.tags ≠ [] then
          listingWrites site.output_path "tags" site.tags
        else [])
    ++ [site.output_path ++ ["index.html"]]

/-- The files written by `Site::render_sections`. -/
def Site.render_sections_writes (site : Site) : List FsPath :=
  (site.sections.map Prod.snd).map
    (fun s => site.output_path ++ s.components ++ ["index.html"])

/-- The files written by `copy_static_directory`: each file of the
static walk lands under the literal `public` directory. -/
def copyStaticWrites (staticFiles : List FsPath) : List FsPath :=
  staticFiles.map (fun rel => "public" :: rel)

/-- `Site::build` as a transformer of the set of existing files:
`clean`, then `build_pages`, `render_sitemap`, the feed when enabled and
produced, `render_sections`, and the static copy.  Template rendering is
an external collaborator and is modelled as succeeding. -/
def Site.build (site : Site) (staticFiles : List FsPath) (fs : Fs) : Fs :=
  let fs := site.clean fs
  let fs := site.build_pages_writes.foldl (fun fs p => fsAdd p fs) fs
  let fs := fsAdd (site.output_path ++ ["sitemap.xml"]) fs
  let fs :=
    if site.config.generate_rss then
      match site.render_rss_feed with
      | some out => fsAdd out.file_path fs
      | none => fs
    else fs
  let fs := site.render_sections_writes.foldl (fun fs p => fsAdd p fs) fs
  (copyStaticWrites staticFiles).foldl (fun fs p => fsAdd p fs) fs

/-! ### Static copy, with contents and directories (`copy_static_directory`) -/

/-- One entry of the `WalkDir` walk over the `static` directory, by its
path relative to `static`; `content` is the file's bytes (abstracted). -/
structure StaticEntry where
  relPath : FsPath
  isDir : Bool
  content : Nat
deriving DecidableEq

/-- The output tree with file contents and explicit directories. -/
structure OutTree where
  files : List (FsPath × Nat)
  dirs : List FsPath
deriving DecidableEq

/-- The body of the `copy_static_directory` loop: a directory is created
when missing; a file is removed when present and then copied — together
an upsert of the file's content. -/
def copyEntry (fs : OutTree) (e : StaticEntry) : OutTree :=
  let target : FsPath := "public" :: e.relPath
  if e.isDir then
    if target ∈ fs.dirs then fs else { fs with dirs := target :: fs.dirs }
  else
    { fs with files := mapInsert fs.files target e.content }

/-- `Site::copy_static_directory`: walk the static tree and copy each
entry under `public`. -/
def copy_static_directory (entries : List StaticEntry) (fs : OutTree) : OutTree :=
  entries.foldl copyEntry fs

/-! ### String helpers used to state the feed-URL claims -/

/-- Remove a single trailing slash, when present. -/
def stripTrailingSlash (l : List Char) : List Char :=
  if l.getLast? = some '/' then l.dropLast else l

/-- Helper for `fileComponent`: scan left to right, restarting after
every `/`. -/
def afterLastSlashAux (acc : List Char) : List Char → List Char
  | [] => acc
  | c :: rest => if c = '/' then afterLastSlashAux [] rest else afterLastSlashAux (acc ++ [c]) rest

/-- The filename component of a URL: everything after the last `/`. -/
def fileComponent (s : String) : List Char := afterLastSlashAux [] s.data

/-! ## Theorems -/

/-! ### C7 and C10: the feed URL and the emitted feed file -/

theorem afterLastSlashAux_append (acc l1 l2 : List Char) :
    afterLastSlashAux acc (l1 ++ l2) = afterLastSlashAux (afterLastSlashAux acc l1) l2 := by
  induction l1 generalizing acc with
  | nil => rfl
  | cons c rest ih =>
    simp only [List.cons_append, afterLastSlashAux]
    split <;> exact ih _

theorem afterLastSlashAux_no_slash (acc l : List Char) (h : ∀ c ∈ l, c ≠ '/') :
    afterLastSlashAux acc l = acc ++ l := by
  induction l generalizing acc with
  | nil => simp [afterLastSlashAux]
  | cons c rest ih =>
    have hc : c ≠ '/' := h c (List.mem_cons_self ..)
    simp only [afterLastSlashAux, if_neg hc]
    rw [ih _ (fun d hd => h d (List.mem_cons_of_mem _ hd))]
    simp

/-- The normal form of the feed URL: the base URL with a single trailing
slash removed, a single separator, then `feed.xml`. -/
theorem rssFeedUrl_data (b : String) :
    (rssFeedUrl b).data = stripTrailingSlash b.data ++ '/' :: "feed.xml".data := by
  by_cases hc : endsWithSlash b = true
  · have hlast : b.data.getLast? = some '/' := by
      simpa [endsWithSlash] using hc
    have hb : b.data.dropLast ++ ['/'] = b.data :=
      List.dropLast_append_getLast? _ hlast
    simp only [rssFeedUrl, if_pos hc, String.data_append, stripTrailingSlash, if_pos hlast]
    rw [← hb]
    simp
  · have hlast : ¬ b.data.getLast? = some '/' := by
      intro hx
      exact hc (by simp [endsWithSlash, hx])
    simp only [rssFeedUrl, if_neg hc, String.data_append, stripTrailingSlash, if_neg hlast]
    simp [show ("/" : String).data = ['/'] from rfl]

/-- The filename component of the feed URL is always `feed.xml`. -/
theorem fileComponent_rssFeedUrl (b : String) :
    fileComponent (rssFeedUrl b) = "feed.xml".data := by
  have h1 : (rssFeedUrl b).data
      = (stripTrailingSlash b.data ++ ['/']) ++ "feed.xml".data := by
    rw [rssFeedUrl_data b]
    simp
  unfold fileComponent
  rw [h1, afterLastSlashAux_append, afterLastSlashAux_append]
  have h2 : ∀ acc : List Char, afterLastSlashAux acc ['/'] = [] := by
    intro acc
    simp [afterLastSlashAux]
  rw [h2]
  simpa using afterLastSlashAux_no_slash [] ("feed.xml".data) (by decide)

/-- C7: the feed URL equals `base_url ++ "/" ++ "feed.xml"` when the
base URL does not end in a slash and `base_url ++ "feed.xml"` when it
does; in both cases it is the base URL, normalized for one trailing
slash, joined to `feed.xml` by exactly one separator. -/
theorem rssFeedUrl_correct (b : String) :
    (endsWithSlash b = false → rssFeedUrl b = b ++ "/" ++ "feed.xml") ∧
    (endsWithSlash b = true → rssFeedUrl b = b ++ "feed.xml") ∧
    (rssFeedUrl b).data = stripTrailingSlash b.data ++ '/' :: "feed.xml".data :=
  ⟨fun h => by simp [rssFeedUrl, h],
   fun h => by simp [rssFeedUrl, h],
   rssFeedUrl_data b⟩

/-- Witness for C7 at two concrete base URLs. -/
theorem rssFeedUrl_correct_witness :
    rssFeedUrl "http://a.com" = "http://a.com" ++ "/" ++ "feed.xml" ∧
    rssFeedUrl "http://b.com/" = "http://b.com/" ++ "feed.xml" :=
  ⟨(rssFeedUrl_correct "http://a.com").1 (by decide),
   (rssFeedUrl_correct "http://b.com/").2.1 (by decide)⟩

/-- C10: whenever at least one page has a date, `render_rss_feed`
emits the file `rss.xml` under the output path, while the advertised
feed URL's filename component is `feed.xml` — the two never agree. -/
theorem render_rss_feed_filename_mismatch (site : Site)
    (h : ∃ kv ∈ site.pages, (kv.2).meta.date.isSome = true) :
    ∃ out, site.render_rss_feed = some out ∧
      out.file_path = site.output_path ++ ["rss.xml"] ∧
      out.file_path.getLast? = some "rss.xml" ∧
      fileComponent out.feed_url = "feed.xml".data ∧
      fileComponent out.feed_url ≠ "rss.xml".data := by
  obtain ⟨kv, hmem, hd⟩ := h
  have hfilter : kv.2 ∈ (site.pages.map Prod.snd).filter (fun p => p.meta.date.isSome) :=
    List.mem_filter.mpr ⟨List.mem_map_of_mem _ hmem, hd⟩
  have hne : (((site.pages.map Prod.snd).filter (fun p => p.meta.date.isSome)).take 15) ≠ [] := by
    rw [Ne, List.take_eq_nil_iff]
    rintro (h15 | hnil)
    · exact absurd h15 (by decide)
    · exact (List.ne_nil_of_mem hfilter) hnil
  have hempty : (((site.pages.map Prod.snd).filter (fun p => p.meta.date.isSome)).take 15).isEmpty = false := by
    rcases heq : ((site.pages.map Prod.snd).filter (fun p => p.meta.date.isSome)).take 15 with _ | _
    · exact absurd heq hne
    · rw [heq]
      rfl
  have hsome : ∃ out, site.render_rss_feed = some out ∧
      out.file_path = site.output_path ++ ["rss.xml"] ∧
      out.feed_url = rssFeedUrl site.config.base_url := by
    simp only [Site.render_rss_feed, hempty, Bool.false_eq_true, if_false]
    exact ⟨_, rfl, rfl, rfl⟩
  obtain ⟨out, h1, h2, h3⟩ := hsome
  refine ⟨out, h1, h2, ?_, ?_, ?_⟩
  · rw [h2]
    simp
  · rw [h3]
    exact fileComponent_rssFeedUrl _
  · rw [h3, fileComponent_rssFeedUrl]
    decide

/-- A minimal site with one dated page, used as the C10 witness input. -/
def datedSite : Site :=
  { config := { base_url := "http://a.com", generate_categories_pages := true,
                generate_tags_pages := true, generate_rss := true },
    pages := [(["content", "a.md"],
      { file_path := ["content", "a.md"], parent_path := ["content"],
        meta := { title := "a", date := some 3, category := none, tags := none },
        url := "a", assets := [] })],
    sections := [], live_reload := false, output_path := ["public"],
    tags := [], categories := [] }

/-- Witness for C10 at a concrete site. -/
theorem render_rss_feed_filename_mismatch_witness :
    ∃ out, datedSite.render_rss_feed = some out ∧
      out.file_path = datedSite.output_path ++ ["rss.xml"] ∧
      out.file_path.getLast? = some "rss.xml" ∧
      fileComponent out.feed_url = "feed.xml".data ∧
      fileComponent out.feed_url ≠ "rss.xml".data :=
  render_rss_feed_filename_mismatch datedSite
    ⟨(["content", "a.md"],
      { file_path := ["content", "a.md"], parent_path := ["content"],
        meta := { title := "a", date := some 3, category := none, tags := none },
        url := "a", assets := [] }), by decide, by decide⟩

/-! ### C3: overview listing ordering -/

theorem mem_insertLe {α : Type} (le : α → α → Bool) (x z : α) (l : List α) :
    z ∈ insertLe le x l ↔ z = x ∨ z ∈ l := by
  induction l with
  | nil => simp [insertLe]
  | cons y ys ih =>
    unfold insertLe
    split
    · simp [List.mem_cons]
    · simp only [List.mem_cons, ih]
      tauto

theorem pairwise_insertLe {α : Type} (le : α → α → Bool)
    (htot : ∀ a b, le a b = true ∨ le b a = true)
    (htrans : ∀ a b c, le a b = true → le b c = true → le a c = true)
    (x : α) (l : List α) (hl : List.Pairwise (fun a b => le a b = true) l) :
    List.Pairwise (fun a b => le a b = true) (insertLe le x l) := by
  induction l with
  | nil => simp [insertLe]
  | cons y ys ih =>
    rcases List.pairwise_cons.mp hl with ⟨hy, hys⟩
    unfold insertLe
    by_cases hxy : le x y = true
    · rw [if_pos hxy]
      refine List.pairwise_cons.mpr ⟨?_, hl⟩
      intro z hz
      rcases List.mem_cons.mp hz with rfl | hz
      · exact hxy
      · exact htrans x y z hxy (hy z hz)
    · rw [if_neg hxy]
      have hyx : le y x = true := (htot x y).resolve_left hxy
      refine List.pairwise_cons.mpr ⟨?_, ih hys⟩
      intro z hz
      rcases (mem_insertLe le x z ys).mp hz with rfl | hz
      · exact hyx
      · exact hy z hz

theorem pairwise_sortLe {α : Type} (le : α → α → Bool)
    (htot : ∀ a b, le a b = true ∨ le b a = true)
    (htrans : ∀ a b c, le a b = true → le b c = true → le a c = true)
    (l : List α) :
    List.Pairwise (fun a b => le a b = true) (sortLe le l) := by
  induction l with
  | nil => simp [sortLe]
  | cons x xs ih => exact pairwise_insertLe le htot htrans x _ ih

/-- Inserting an item: the equal-count slice keeps its order, with the
inserted item first when its count matches. -/
theorem filter_insertLe_count (x : ListItem) (l : List ListItem) (c : Nat) :
    (insertLe countGe x l).filter (fun it => it.count == c)
      = if x.count = c then x :: l.filter (fun it => it.count == c)
        else l.filter (fun it => it.count == c) := by
  induction l with
  | nil =>
    by_cases hx : x.count = c <;> simp [insertLe, List.filter_cons, hx]
  | cons y ys ih =>
    unfold insertLe
    by_cases hxy : countGe x y = true
    · rw [if_pos hxy]
      by_cases hx : x.count = c <;> simp [List.filter_cons, hx]
    · rw [if_neg hxy]
      have hgt : x.count < y.count := by
        have := hxy
        simp only [countGe, decide_eq_true_eq] at this
        omega
      rw [List.filter_cons, List.filter_cons]
      by_cases hy : (y.count == c) = true
      · have hyc : y.count = c := by simpa using hy
        have hxc : ¬ x.count = c := by omega
        simp only [hy, if_pos, ih, if_neg hxc]
      · simp only [hy, Bool.false_eq_true, if_false, ih]

/-- Stability of the overview sort: for every count value, the items
carrying that count appear in exactly their original (map-iteration)
order. -/
theorem filter_sortLe_count (l : List ListItem) (c : Nat) :
    (sortLe countGe l).filter (fun it => it.count == c)
      = l.filter (fun it => it.count == c) := by
  induction l with
  | nil => rfl
  | cons x xs ih =>
    unfold sortLe
    rw [filter_insertLe_count]
    by_cases hx : x.count = c
    · rw [if_pos hx, ih, List.filter_cons, if_pos (by simpa using hx)]
    · rw [if_neg hx, ih, List.filter_cons, if_neg (by simpa using hx)]

/-- Two iteration orders of the same tag map (same bindings, distinct
keys, equal counts). -/
def listingOrderA : List (String × List FsPath) := [("a", [["p1"]]), ("b", [["p2"]])]

/-- The same map, iterated the other way around. -/
def listingOrderB : List (String × List FsPath) := [("b", [["p2"]]), ("a", [["p1"]])]

/-- Counterexample to C3 as stated: the overview listing is a function
of the map's iteration order, not of its contents — two iteration
orders of one and the same map (a key-distinct permutation) produce
different listings, so equal counts are not broken by a deterministic
original key order (the `HashMap` iteration order is unspecified). -/
theorem overview_tiebreak_not_deterministic :
    listingOrderA.Perm listingOrderB ∧
    (listingOrderA.map Prod.fst).Nodup ∧
    overviewItems listingOrderA ≠ overviewItems listingOrderB := by
  refine ⟨?_, by decide, by decide⟩
  exact List.Perm.swap _ _ _

/-- C3 amended: the overview listing is sorted by descending membership
count, and items with equal counts keep their relative order from the
map's iteration order (a stable sort) — but that iteration order is the
hash map's, not a deterministic original key order. -/
theorem overviewItems_sorted_stable (items : List (String × List FsPath)) :
    List.Pairwise (fun a b : ListItem => b.count ≤ a.count) (overviewItems items) ∧
    ∀ c : Nat, (overviewItems items).filter (fun it => it.count == c)
      = (items.map (fun kv => ListItem.new kv.1 kv.2.length)).filter (fun it => it.count == c) := by
  constructor
  · have htot : ∀ a b : ListItem, countGe a b = true ∨ countGe b a = true := by
      intro a b
      simp only [countGe, decide_eq_true_eq]
      omega
    have htrans : ∀ a b c : ListItem, countGe a b = true → countGe b c = true → countGe a c = true := by
      intro a b c
      simp only [countGe, decide_eq_true_eq]
      omega
    have h := pairwise_sortLe countGe htot htrans (items.map (fun kv => ListItem.new kv.1 kv.2.length))
    refine List.Pairwise.imp ?_ h
    intro a b hab
    simpa [countGe] using hab
  · intro c
    exact filter_sortLe_count _ c

/-! ### C6: tag and category index membership -/

/-- The tag-index contribution of one page, in isolation. -/
def tagStep (m : List (String × List FsPath)) (p : Page) : List (String × List FsPath) :=
  match p.meta.tags with
  | some ts => ts.foldl (fun m tag => entryPush m tag p.file_path) m
  | none => m

/-- The category-index contribution of one page, in isolation. -/
def catStep (m : List (String × List FsPath)) (p : Page) : List (String × List FsPath) :=
  match p.meta.category with
  | some c => entryPush m c p.file_path
  | none => m

theorem foldl_indexPage_tags (ps : List Page) (site : Site) :
    (ps.foldl indexPage site).tags = ps.foldl tagStep site.tags := by
  induction ps generalizing site with
  | nil => rfl
  | cons p rest ih =>
    rw [List.foldl_cons, List.foldl_cons, ih]
    congr 1
    unfold indexPage tagStep
    cases p.meta.category <;> cases p.meta.tags <;> rfl

theorem foldl_indexPage_categories (ps : List Page) (site : Site) :
    (ps.foldl indexPage site).categories = ps.foldl catStep site.categories := by
  induction ps generalizing site with
  | nil => rfl
  | cons p rest ih =>
    rw [List.foldl_cons, List.foldl_cons, ih]
    congr 1
    unfold indexPage catStep
    cases p.meta.category <;> cases p.meta.tags <;> rfl

theorem mem_lookupD_entryPush (m : List (String × List FsPath)) (k k' : String)
    (x y : FsPath) :
    x ∈ lookupD (entryPush m k' y) k ↔ x ∈ lookupD m k ∨ (k = k' ∧ x = y) := by
  induction m with
  | nil =>
    by_cases h : k' = k
    · subst h
      simp [entryPush, lookupD]
    · have hne : ¬ (k = k') := fun hc => h hc.symm
      simp [entryPush, lookupD, h, hne]
  | cons kv rest ih =>
    obtain ⟨k0, v⟩ := kv
    by_cases h0 : k0 = k'
    · subst h0
      by_cases hk : k0 = k
      · subst hk
        simp [entryPush, lookupD]
      · have hk' : ¬ (k = k0) := fun hc => hk hc.symm
        simp [entryPush, lookupD, hk, hk']
    · by_cases hk : k0 = k
      · subst hk
        have hne : ¬ (k0 = k') := h0
        simp [entryPush, lookupD, h0, hne]
      · have hk' : ¬ (k = k0) := fun hc => hk hc.symm
        simp [entryPush, lookupD, h0, hk, hk', ih]

theorem mem_lookupD_tagsFold (ts : List String) (fp : FsPath)
    (m : List (String × List FsPath)) (k : String) (x : FsPath) :
    x ∈ lookupD (ts.foldl (fun m tag => entryPush m tag fp) m) k ↔
      x ∈ lookupD m k ∨ (k ∈ ts ∧ x = fp) := by
  induction ts generalizing m with
  | nil => simp
  | cons t rest ih =>
    rw [List.foldl_cons, ih, mem_lookupD_entryPush]
    simp only [List.mem_cons]
    constructor
    · rintro ((hm | ⟨rfl, rfl⟩) | ⟨hk, rfl⟩)
      · exact Or.inl hm
      · exact Or.inr ⟨Or.inl rfl, rfl⟩
      · exact Or.inr ⟨Or.inr hk, rfl⟩
    · rintro (hm | ⟨(rfl | hk), rfl⟩)
      · exact Or.inl (Or.inl hm)
      · exact Or.inl (Or.inr ⟨rfl, rfl⟩)
      · exact Or.inr ⟨hk, rfl⟩

/-- What it means for a page's identity to sit in the tag index under
key `k`, for a fold starting from an arbitrary index. -/
theorem mem_lookupD_tagStep_fold (ps : List Page)
    (m : List (String × List FsPath)) (k : String) (x : FsPath) :
    x ∈ lookupD (ps.foldl tagStep m) k ↔
      x ∈ lookupD m k ∨ ∃ p ∈ ps, x = p.file_path ∧ k ∈ p.meta.tags.getD [] := by
  induction ps generalizing m with
  | nil => simp
  | cons p rest ih =>
    rw [List.foldl_cons, ih]
    have hstep : x ∈ lookupD (tagStep m p) k ↔
        x ∈ lookupD m k ∨ (k ∈ p.meta.tags.getD [] ∧ x = p.file_path) := by
      unfold tagStep
      cases htags : p.meta.tags with
      | none => simp
      | some ts => rw [mem_lookupD_tagsFold]; simp
    rw [hstep]
    simp only [List.mem_cons]
    constructor
    · rintro ((hm | ⟨hk, rfl⟩) | ⟨q, hq, rfl, hkq⟩)
      · exact Or.inl hm
      · exact Or.inr ⟨p, Or.inl rfl, rfl, hk⟩
      · exact Or.inr ⟨q, Or.inr hq, rfl, hkq⟩
    · rintro (hm | ⟨q, (rfl | hq), rfl, hkq⟩)
      · exact Or.inl (Or.inl hm)
      · exact Or.inl (Or.inr ⟨hkq, rfl⟩)
      · exact Or.inr ⟨q, hq, rfl, hkq⟩

/-- The category-index analogue of `mem_lookupD_tagStep_fold`. -/
theorem mem_lookupD_catStep_fold (ps : List Page)
    (m : List (String × List FsPath)) (k : String) (x : FsPath) :
    x ∈ lookupD (ps.foldl catStep m) k ↔
      x ∈ lookupD m k ∨ ∃ p ∈ ps, x = p.file_path ∧ p.meta.category = some k := by
  induction ps generalizing m with
  | nil => simp
  | cons p rest ih =>
    rw [List.foldl_cons, ih]
    have hstep : x ∈ lookupD (catStep m p) k ↔
        x ∈ lookupD m k ∨ (p.meta.category = some k ∧ x = p.file_path) := by
      unfold catStep
      cases hcat : p.meta.category with
      | none => simp
      | some c =>
        rw [mem_lookupD_entryPush]
        simp [eq_comm, and_comm]
    rw [hstep]
    simp only [List.mem_cons]
    constructor
    · rintro ((hm | ⟨hk, rfl⟩) | ⟨q, hq, rfl, hkq⟩)
      · exact Or.inl hm
      · exact Or.inr ⟨p, Or.inl rfl, rfl, hk⟩
      · exact Or.inr ⟨q, Or.inr hq, rfl, hkq⟩
    · rintro (hm | ⟨q, (rfl | hq), rfl, hkq⟩)
      · exact Or.inl (Or.inl hm)
      · exact Or.inl (Or.inr ⟨hkq, rfl⟩)
      · exact Or.inr ⟨q, hq, rfl, hkq⟩

/-- C6: after index building (from empty indices, with unique page
identities), a page with `tags = [a, b, ...]` appears in the tag index
under exactly its declared tag keys, and a page with no category
appears under no key of the category index. -/
theorem index_membership (site : Site) (p : Page) (ts : List String) (k : String)
    (hnodup : ((site.pages.map Prod.snd).map Page.file_path).Nodup)
    (htags0 : site.tags = []) (hcats0 : site.categories = [])
    (hp : p ∈ site.pages.map Prod.snd) :
    (p.meta.tags = some ts →
      (p.file_path ∈ lookupD site.parse_tags_and_categories.tags k ↔ k ∈ ts)) ∧
    (p.meta.category = none →
      p.file_path ∉ lookupD site.parse_tags_and_categories.categories k) := by
  have hinj : ∀ q ∈ site.pages.map Prod.snd, q.file_path = p.file_path → q = p := by
    intro q hq hfp
    exact List.inj_on_of_nodup_map hnodup hq hp hfp
  constructor
  · intro hts
    rw [Site.parse_tags_and_categories, foldl_indexPage_tags, htags0,
      mem_lookupD_tagStep_fold]
    constructor
    · rintro (hm | ⟨q, hq, hfp, hkq⟩)
      · simp [lookupD] at hm
      · have : q = p := hinj q hq hfp.symm
        subst this
        rw [hts] at hkq
        simpa using hkq
    · intro hk
      exact Or.inr ⟨p, hp, rfl, by simp [hts, hk]⟩
  · intro hcat
    rw [Site.parse_tags_and_categories, foldl_indexPage_categories, hcats0,
      mem_lookupD_catStep_fold]
    rintro (hm | ⟨q, hq, hfp, hkq⟩)
    · simp [lookupD] at hm
    · have : q = p := hinj q hq hfp.symm
      subst this
      rw [hcat] at hkq
      exact Option.noConfusion hkq

/-- A page carrying tags `["a", "b"]` and no category. -/
def taggedPage : Page :=
  { file_path := ["content", "post.md"], parent_path := ["content"],
    meta := { title := "post", date := some 1, category := none, tags := some ["a", "b"] },
    url := "post", assets := [] }

/-- A one-page site with empty indices, used as the C6 witness input. -/
def taggedSite : Site :=
  { config := { base_url := "http://a.com", generate_categories_pages := true,
                generate_tags_pages := true, generate_rss := true },
    pages := [(["content", "post.md"], taggedPage)],
    sections := [], live_reload := false, output_path := ["public"],
    tags := [], categories := [] }

/-- Witness for C6: the tagged page is under key `a` of the tag index,
not under the unrelated key `c`, and under no category key. -/
theorem index_membership_witness :
    (taggedPage.file_path ∈ lookupD taggedSite.parse_tags_and_categories.tags "a") ∧
    ¬ (taggedPage.file_path ∈ lookupD taggedSite.parse_tags_and_categories.tags "c") ∧
    taggedPage.file_path ∉ lookupD taggedSite.parse_tags_and_categories.categories "rust" :=
  ⟨((index_membership taggedSite taggedPage ["a", "b"] "a" (by decide) rfl rfl
      (by decide)).1 rfl).mpr (by decide),
   fun h => by
    have := ((index_membership taggedSite taggedPage ["a", "b"] "c" (by decide) rfl rfl
      (by decide)).1 rfl).mp h
    simp at this,
   (index_membership taggedSite taggedPage ["a", "b"] "rust" (by decide) rfl rfl
      (by decide)).2 rfl⟩

/-! ### C1: the feed takes 15 pages before sorting -/

/-- A configuration with every toggle on. -/
def baseConfig : Config :=
  { base_url := "http://a.com", generate_categories_pages := true,
    generate_tags_pages := true, generate_rss := true }

/-- The `i`-th page of the skewed site: dated `i + 1`, identified by a
path of `i` copies of `x`. -/
def skewedPage (i : Nat) : Page :=
  { file_path := ["c", String.mk (List.replicate i 'x')], parent_path := ["c"],
    meta := { title := "", date := some (i + 1), category := none, tags := none },
    url := "", assets := [] }

/-- A site whose page map iterates 16 dated pages oldest-first: the
most recent page (date 16) comes last in iteration order. -/
def skewedSite : Site :=
  { config := baseConfig,
    pages := (List.range 16).map (fun i => (["c", String.mk (List.replicate i 'x')], skewedPage i)),
    sections := [], live_reload := false, output_path := ["public"],
    tags := [], categories := [] }

/-- The pages `render_rss_feed` actually puts in the feed for the
skewed site. -/
def skewedFeedPages : List Page := (skewedSite.render_rss_feed.map FeedOutput.pages).getD []

/-- C1: `render_rss_feed` applies `take(15)` to the dated pages in map
iteration order and only then sorts, so on a site with 16 dated pages
iterated oldest-first the feed does hold exactly 15 pages, but the most
recent page — which the 15-most-recently-dated selection demanded by
the claim must contain — is missing from it. -/
theorem render_rss_feed_takes_before_sorting :
    skewedSite.render_rss_feed.isSome = true ∧
    skewedFeedPages.length = 15 ∧
    skewedPage 15 ∉ skewedFeedPages ∧
    skewedPage 15 ∈ specFeedPages (skewedSite.pages.map Prod.snd) := by decide

/-! ### C2: `parse` is not idempotent (indices accumulate) -/

/-- A page tagged `a` and categorized `rust`. -/
def dupPage : Page :=
  { file_path := ["content", "a.md"], parent_path := ["content"],
    meta := { title := "a", date := some 1, category := some "rust", tags := some ["a"] },
    url := "a", assets := [] }

/-- The content entry for `dupPage`. -/
def dupEntry : Entry := { path := ["content", "a.md"], asSection := none, asPage := some dupPage }

/-- C2: `parse` replaces the section map and upserts the page map, but
`parse_tags_and_categories` appends to the existing tag/category
indices without clearing them, so a second `parse` over the unchanged
content tree duplicates every index entry and the resulting state
differs from the state after a single run. -/
theorem parse_twice_duplicates_index_entries :
    ((Site.new baseConfig).parse [dupEntry]).1.tags = [("a", [["content", "a.md"]])] ∧
    (Site.parse ((Site.new baseConfig).parse [dupEntry]).1 [dupEntry]).1.tags
      = [("a", [["content", "a.md"], ["content", "a.md"]])] ∧
    (Site.parse ((Site.new baseConfig).parse [dupEntry]).1 [dupEntry]).1
      ≠ ((Site.new baseConfig).parse [dupEntry]).1 := by decide

/-! ### C4: a parse error aborts, but the page map is partially updated -/

/-- An entry the content parser fails on. -/
def failingEntry : Entry := { path := ["content", "bad.md"], asSection := none, asPage := none }

/-- Counterexample to C4 as stated: when the second content file fails
to parse, `parse` aborts with the error naming that file, yet the page
parsed before the failure has already been inserted into `self.pages` —
the page state is left partially updated by the failed run. -/
theorem parse_error_leaves_partial_pages :
    ((Site.new baseConfig).parse [dupEntry, failingEntry]).2
      = some "Error parsing content/bad.md" ∧
    ((Site.new baseConfig).parse [dupEntry, failingEntry]).1.pages
      ≠ (Site.new baseConfig).pages := by decide

/-- Does the content parser fail on this entry, under the file-name
dispatch `parse` applies? -/
def entryFails (e : Entry) : Bool :=
  if fileNameOf e.path = "_index.md" then e.asSection.isNone else e.asPage.isNone

theorem parseLoop_error (entries : List Entry) (site : Site)
    (secs : List (FsPath × SectionData)) (site' : Site)
    (secs' : List (FsPath × SectionData)) (msg : String)
    (h : parseLoop site secs entries = (site', secs', some msg)) :
    site'.sections = site.sections ∧ site'.tags = site.tags ∧
    site'.categories = site.categories ∧
    ∃ e ∈ entries, entryFails e = true ∧ msg = parseError e := by
  induction entries generalizing site secs with
  | nil => simp [parseLoop] at h
  | cons e rest ih =>
    rw [parseLoop] at h
    by_cases hidx : fileNameOf e.path = "_index.md"
    · rw [if_pos hidx] at h
      cases hsec : e.asSection with
      | none =>
        rw [hsec] at h
        obtain ⟨h1, h2, h3⟩ : site = site' ∧ secs = secs' ∧ parseError e = msg := by
          simpa [Prod.ext_iff] using h
        subst h1
        subst h3
        exact ⟨rfl, rfl, rfl, e, List.mem_cons_self .., by simp [entryFails, hidx, hsec], rfl⟩
      | some s =>
        rw [hsec] at h
        obtain ⟨g1, g2, g3, e', he', hf, hm⟩ := ih _ _ h
        exact ⟨g1, g2, g3, e', List.mem_cons_of_mem _ he', hf, hm⟩
    · rw [if_neg hidx] at h
      cases hpg : e.asPage with
      | none =>
        rw [hpg] at h
        obtain ⟨h1, h2, h3⟩ : site = site' ∧ secs = secs' ∧ parseError e = msg := by
          simpa [Prod.ext_iff] using h
        subst h1
        subst h3
        exact ⟨rfl, rfl, rfl, e, List.mem_cons_self .., by simp [entryFails, hidx, hpg], rfl⟩
      | some p =>
        rw [hpg] at h
        obtain ⟨g1, g2, g3, e', he', hf, hm⟩ := ih _ _ h
        exact ⟨g1, g2, g3, e', List.mem_cons_of_mem _ he', hf, hm⟩

theorem parse_snd_ok (site : Site) (entries : List Entry) (site' : Site)
    (secs : List (FsPath × SectionData))
    (heq : parseLoop site [] entries = (site', secs, none)) :
    (site.parse entries).2 = none := by
  unfold Site.parse
  rw [heq]

theorem parse_eq_error (site : Site) (entries : List Entry) (site' : Site)
    (secs : List (FsPath × SectionData)) (msg : String)
    (heq : parseLoop site [] entries = (site', secs, some msg)) :
    site.parse entries = (site', some msg) := by
  unfold Site.parse
  rw [heq]

/-- C4 amended: an unparsable content file aborts `parse` with the
descriptive error naming the offending file, and the section, tag and
category state is not touched by the failed run — but the page map may
retain the pages parsed before the failure. -/
theorem parse_error_aborts (site : Site) (entries : List Entry) (msg : String)
    (h : (site.parse entries).2 = some msg) :
    (site.parse entries).1.sections = site.sections ∧
    (site.parse entries).1.tags = site.tags ∧
    (site.parse entries).1.categories = site.categories ∧
    ∃ e ∈ entries, entryFails e = true ∧ msg = parseError e := by
  rcases heq : parseLoop site [] entries with ⟨site', secs, oerr⟩
  cases oerr with
  | none =>
    rw [parse_snd_ok site entries site' secs heq] at h
    exact Option.noConfusion h
  | some m =>
    rw [parse_eq_error site entries site' secs m heq] at h ⊢
    obtain rfl : m = msg := by simpa using h
    exact parseLoop_error entries site [] site' secs m heq

/-- Witness for C4's amended claim at a concrete failing content
tree. -/
theorem parse_error_aborts_witness :
    ((Site.new baseConfig).parse [failingEntry]).1.sections = (Site.new baseConfig).sections ∧
    ((Site.new baseConfig).parse [failingEntry]).1.tags = (Site.new baseConfig).tags ∧
    ((Site.new baseConfig).parse [failingEntry]).1.categories = (Site.new baseConfig).categories ∧
    ∃ e ∈ [failingEntry], entryFails e = true ∧ "Error parsing content/bad.md" = parseError e :=
  parse_error_aborts (Site.new baseConfig) [failingEntry] "Error parsing content/bad.md" (by decide)

/-! ### C8: live-reload injection -/

theorem replaceAll_no_occurrence (pat repl : List Char) (s : List Char)
    (h : ∀ i, i < s.length → ¬ pat.isPrefixOf (List.drop i s) = true) :
    replaceAll pat repl s = s := by
  induction s with
  | nil => rw [replaceAll]
  | cons c rest ih =>
    have hnotpre : ¬ (pat ≠ [] ∧ pat.isPrefixOf (c :: rest) = true) := by
      rintro ⟨_, hpre⟩
      exact h 0 (by simp) (by simpa using hpre)
    rw [replaceAll, dif_neg hnotpre]
    congr 1
    refine ih ?_
    intro i hi hp
    refine h (i + 1) (by simpa using Nat.succ_lt_succ hi) ?_
    simpa using hp

theorem replaceAll_single_occurrence (pat repl a b : List Char) (hpat : pat ≠ [])
    (huniq : ∀ i, i < (a ++ pat ++ b).length →
      pat.isPrefixOf (List.drop i (a ++ pat ++ b)) = true → i = a.length) :
    replaceAll pat repl (a ++ pat ++ b) = a ++ repl ++ b := by
  induction a with
  | nil =>
    obtain ⟨p0, prest, rfl⟩ : ∃ p0 prest, pat = p0 :: prest := by
      cases pat with
      | nil => exact absurd rfl hpat
      | cons p0 prest => exact ⟨p0, prest, rfl⟩
    simp only [List.nil_append] at huniq ⊢
    have hpre : (p0 :: prest).isPrefixOf (p0 :: (prest ++ b)) = true := by
      rw [List.isPrefixOf_iff_prefix]
      exact List.prefix_append _ _
    rw [show (p0 :: prest) ++ b = p0 :: (prest ++ b) from rfl]
    rw [replaceAll, dif_pos ⟨hpat, hpre⟩]
    have hdrop : List.drop (p0 :: prest).length (p0 :: (prest ++ b)) = b := by
      simp only [List.length_cons, List.drop_succ_cons]
      exact List.drop_left prest b
    rw [hdrop]
    congr 1
    refine replaceAll_no_occurrence _ _ b ?_
    intro j hj hp
    have hlen : (p0 :: prest).length + j < ((p0 :: prest) ++ b).length := by
      simp only [List.length_append]
      omega
    have hdropj : List.drop ((p0 :: prest).length + j) ((p0 :: prest) ++ b)
        = List.drop j b := List.drop_append ..
    have h1 := huniq ((p0 :: prest).length + j) hlen (by rw [hdropj]; exact hp)
    simp only [List.length_cons, List.length_nil] at h1
    omega
  | cons c a' ih =>
    have hnotpre : ¬ (pat ≠ [] ∧ pat.isPrefixOf (c :: (a' ++ pat ++ b)) = true) := by
      rintro ⟨_, hpre⟩
      have hlen : (0 : Nat) < ((c :: a') ++ pat ++ b).length := by simp
      have h0 := huniq 0 hlen (by simpa using hpre)
      simp at h0
    rw [show ((c :: a') ++ pat ++ b) = c :: (a' ++ pat ++ b) from rfl]
    rw [replaceAll, dif_neg hnotpre]
    have hrest : replaceAll pat repl (a' ++ pat ++ b) = a' ++ repl ++ b := by
      refine ih ?_
      intro i hi hp
      have hlen : i + 1 < ((c :: a') ++ pat ++ b).length := by
        simp only [List.length_append, List.length_cons] at hi ⊢
        omega
      have hdrop : List.drop (i + 1) ((c :: a') ++ pat ++ b)
          = List.drop i (a' ++ pat ++ b) := rfl
      have h1 := huniq (i + 1) hlen (by rw [hdrop]; exact hp)
      simp only [List.length_cons] at h1
      omega
    rw [hrest]
    simp

/-- C8: for an emitted HTML document with a unique closing body marker,
live-reload mode injects exactly the fixed script tag, spliced in
immediately before the marker; with live-reload disabled the document
is emitted unchanged. -/
theorem inject_livereload_correct (live : Bool) (html a b : List Char)
    (hdecomp : html = a ++ bodyCloseTag ++ b)
    (huniq : ∀ i, i < html.length →
      bodyCloseTag.isPrefixOf (List.drop i html) = true → i = a.length) :
    (live = false → inject_livereload live html = html) ∧
    (live = true → inject_livereload live html = a ++ liveReloadTag ++ bodyCloseTag ++ b) := by
  constructor
  · intro hoff
    simp [inject_livereload, hoff]
  · intro hon
    subst hon
    subst hdecomp
    simp only [inject_livereload, if_pos]
    rw [replaceAll_single_occurrence bodyCloseTag (liveReloadTag ++ bodyCloseTag) a b
      (by decide) huniq]
    simp

/-- Witness for C8 on the concrete document `x</body>y`. -/
theorem inject_livereload_correct_witness :
    inject_livereload false ("x</body>y".data) = "x</body>y".data ∧
    inject_livereload true ("x</body>y".data)
      = "x".data ++ liveReloadTag ++ bodyCloseTag ++ "y".data :=
  ⟨(inject_livereload_correct false ("x</body>y".data) ("x".data) ("y".data)
      (by decide) (by decide)).1 rfl,
   (inject_livereload_correct true ("x</body>y".data) ("x".data) ("y".data)
      (by decide) (by decide)).2 rfl⟩

/-! ### C5: `build` then `clean` -/

/-- A site configured with a non-default output root. -/
def customOutputSite : Site :=
  { config := { base_url := "http://a.com", generate_categories_pages := false,
                generate_tags_pages := false, generate_rss := false },
    pages := [], sections := [], live_reload := false, output_path := ["custom"],
    tags := [], categories := [] }

/-- Counterexample to C5 as stated: with the output root configured to
`custom`, `build` writes the site index under `custom`, but `clean`
removes only the hardcoded `public` directory, so `build` followed by
`clean` leaves files under the output root. -/
theorem build_then_clean_leaves_custom_output :
    ["custom", "index.html"] ∈ customOutputSite.clean (customOutputSite.build [] []) ∧
    underDir customOutputSite.output_path ["custom", "index.html"] = true := by decide

/-- C5 amended: for the default output root `public` — the directory
`clean` actually targets — `build` followed by `clean` leaves no files
under the output root. -/
theorem build_then_clean_empties_public (site : Site) (statics : List FsPath) (fs : Fs)
    (h : site.output_path = ["public"]) :
    (site.clean (site.build statics fs)).all
      (fun p => !underDir site.output_path p) = true := by
  rw [List.all_eq_true]
  intro p hp
  rw [h]
  simp only [Site.clean, List.mem_filter] at hp
  simpa using hp.2

/-- Witness for C5's amended claim on a concrete site, static tree and
pre-existing output tree. -/
theorem build_then_clean_empties_public_witness :
    ((Site.new baseConfig).clean ((Site.new baseConfig).build [["s.css"]]
        [["public", "old.html"], ["elsewhere", "keep.html"]])).all
      (fun p => !underDir (Site.new baseConfig).output_path p) = true :=
  build_then_clean_empties_public (Site.new baseConfig) [["s.css"]]
    [["public", "old.html"], ["elsewhere", "keep.html"]] rfl

/-! ### C9: the static copy is additive -/

/-- The output path a static entry is copied to. -/
def staticTarget (e : StaticEntry) : FsPath := "public" :: e.relPath

theorem mapFind_mapInsert {K V : Type} [DecidableEq K] (m : List (K × V)) (k p : K) (v : V) :
    mapFind (mapInsert m k v) p = if k = p then some v else mapFind m p := by
  induction m with
  | nil => by_cases h : k = p <;> simp [mapInsert, mapFind, h]
  | cons kv rest ih =>
    obtain ⟨k0, v0⟩ := kv
    by_cases h0 : k0 = k
    · subst h0
      by_cases hp : k0 = p <;> simp [mapInsert, mapFind, hp]
    · by_cases hp : k0 = p
      · subst hp
        have hkp : ¬ k = k0 := fun hc => h0 hc.symm
        simp [mapInsert, mapFind, h0, hkp]
      · simp [mapInsert, mapFind, h0, hp, ih]

theorem mapFind_isSome_of_mem {K V : Type} [DecidableEq K] (m : List (K × V)) (kv : K × V)
    (h : kv ∈ m) : (mapFind m kv.1).isSome = true := by
  induction m with
  | nil => cases h
  | cons kv0 rest ih =>
    obtain ⟨k0, v0⟩ := kv0
    rcases List.mem_cons.mp h with rfl | h
    · simp [mapFind]
    · by_cases hk : k0 = kv.1
      · simp [mapFind, hk]
      · simp [mapFind, hk, ih h]

theorem copyEntry_files_frame (fs : OutTree) (e : StaticEntry) (p : FsPath)
    (hne : staticTarget e ≠ p) :
    mapFind (copyEntry fs e).files p = mapFind fs.files p := by
  unfold staticTarget at hne
  unfold copyEntry
  by_cases hd : e.isDir
  · simp only [hd, if_true]
    split <;> rfl
  · simp only [hd, Bool.false_eq_true, if_false]
    simp [mapFind_mapInsert, hne]

theorem copyEntry_dirs_frame (fs : OutTree) (e : StaticEntry) (p : FsPath)
    (hne : staticTarget e ≠ p) :
    p ∈ (copyEntry fs e).dirs ↔ p ∈ fs.dirs := by
  unfold staticTarget at hne
  unfold copyEntry
  by_cases hd : e.isDir
  · simp only [hd, if_true]
    split
    · exact Iff.rfl
    · have hne' : ¬ (p = "public" :: e.relPath) := fun hc => hne hc.symm
      simp [List.mem_cons, hne']
  · simp [hd]

theorem copyEntry_dirs_mono (fs : OutTree) (e : StaticEntry) (q : FsPath)
    (hq : q ∈ fs.dirs) : q ∈ (copyEntry fs e).dirs := by
  unfold copyEntry
  by_cases hd : e.isDir
  · simp only [hd, if_true]
    split
    · exact hq
    · exact List.mem_cons_of_mem _ hq
  · simpa [hd] using hq

theorem copyEntry_files_mono (fs : OutTree) (e : StaticEntry) (q : FsPath)
    (hq : (mapFind fs.files q).isSome = true) :
    (mapFind (copyEntry fs e).files q).isSome = true := by
  unfold copyEntry
  by_cases hd : e.isDir
  · simp only [hd, if_true]
    split <;> exact hq
  · simp only [hd, Bool.false_eq_true, if_false]
    simp only [mapFind_mapInsert]
    split
    · rfl
    · exact hq

theorem copy_static_files_frame (entries : List StaticEntry) (fs : OutTree) (p : FsPath)
    (h : ∀ e ∈ entries, staticTarget e ≠ p) :
    mapFind (copy_static_directory entries fs).files p = mapFind fs.files p := by
  induction entries generalizing fs with
  | nil => rfl
  | cons e rest ih =>
    have hstep : copy_static_directory (e :: rest) fs
        = copy_static_directory rest (copyEntry fs e) := by
      simp [copy_static_directory]
    rw [hstep, ih _ (fun e' he' => h e' (List.mem_cons_of_mem _ he'))]
    exact copyEntry_files_frame fs e p (h e (List.mem_cons_self ..))

theorem copy_static_dirs_frame (entries : List StaticEntry) (fs : OutTree) (p : FsPath)
    (h : ∀ e ∈ entries, staticTarget e ≠ p) :
    p ∈ (copy_static_directory entries fs).dirs ↔ p ∈ fs.dirs := by
  induction entries generalizing fs with
  | nil => exact Iff.rfl
  | cons e rest ih =>
    have hstep : copy_static_directory (e :: rest) fs
        = copy_static_directory rest (copyEntry fs e) := by
      simp [copy_static_directory]
    rw [hstep]
    exact (ih _ (fun e' he' => h e' (List.mem_cons_of_mem _ he'))).trans
      (copyEntry_dirs_frame fs e p (h e (List.mem_cons_self ..)))

theorem copy_static_dirs_mono (entries : List StaticEntry) (fs : OutTree) (q : FsPath)
    (hq : q ∈ fs.dirs) : q ∈ (copy_static_directory entries fs).dirs := by
  induction entries generalizing fs with
  | nil => exact hq
  | cons e rest ih =>
    have hstep : copy_static_directory (e :: rest) fs
        = copy_static_directory rest (copyEntry fs e) := by
      simp [copy_static_directory]
    rw [hstep]
    exact ih _ (copyEntry_dirs_mono fs e q hq)

theorem copy_static_files_mono (entries : List StaticEntry) (fs : OutTree) (q : FsPath)
    (hq : (mapFind fs.files q).isSome = true) :
    (mapFind (copy_static_directory entries fs).files q).isSome = true := by
  induction entries generalizing fs with
  | nil => exact hq
  | cons e rest ih =>
    have hstep : copy_static_directory (e :: rest) fs
        = copy_static_directory rest (copyEntry fs e) := by
      simp [copy_static_directory]
    rw [hstep]
    exact ih _ (copyEntry_files_mono fs e q hq)

theorem copy_static_creates (entries : List StaticEntry) (fs : OutTree) (e : StaticEntry)
    (he : e ∈ entries) :
    (e.isDir = true → staticTarget e ∈ (copy_static_directory entries fs).dirs) ∧
    (e.isDir = false →
      (mapFind (copy_static_directory entries fs).files (staticTarget e)).isSome = true) := by
  induction entries generalizing fs with
  | nil => cases he
  | cons e0 rest ih =>
    have hstep : copy_static_directory (e0 :: rest) fs
        = copy_static_directory rest (copyEntry fs e0) := by
      simp [copy_static_directory]
    rw [hstep]
    rcases List.mem_cons.mp he with rfl | hrest
    · constructor
      · intro hd
        refine copy_static_dirs_mono rest (copyEntry fs e) _ ?_
        unfold copyEntry staticTarget
        simp only [hd, if_true]
        split
        · assumption
        · exact List.mem_cons_self ..
      · intro hd
        refine copy_static_files_mono rest (copyEntry fs e) _ ?_
        unfold copyEntry staticTarget
        simp [hd, mapFind_mapInsert]
    · exact ih (copyEntry fs e0) hrest

/-- C9: the static copy is additive.  Every output entry whose path is
not a copy target keeps exactly its old content (files) and presence
(directories); every pre-existing directory and file still exists
afterwards (nothing is pruned); and the copy itself creates the missing
directories and writes every source file. -/
theorem copy_static_additive (entries : List StaticEntry) (fs : OutTree) (p : FsPath)
    (honly : ∀ e ∈ entries, staticTarget e ≠ p) :
    mapFind (copy_static_directory entries fs).files p = mapFind fs.files p ∧
    (p ∈ (copy_static_directory entries fs).dirs ↔ p ∈ fs.dirs) ∧
    fs.dirs.all (fun q => decide (q ∈ (copy_static_directory entries fs).dirs)) = true ∧
    fs.files.all (fun kv => (mapFind (copy_static_directory entries fs).files kv.1).isSome) = true ∧
    entries.all (fun e =>
      if e.isDir then decide (staticTarget e ∈ (copy_static_directory entries fs).dirs)
      else (mapFind (copy_static_directory entries fs).files (staticTarget e)).isSome) = true := by
  refine ⟨copy_static_files_frame entries fs p honly,
    copy_static_dirs_frame entries fs p honly, ?_, ?_, ?_⟩
  · rw [List.all_eq_true]
    intro q hq
    simpa using copy_static_dirs_mono entries fs q hq
  · rw [List.all_eq_true]
    intro kv hkv
    exact copy_static_files_mono entries fs kv.1 (mapFind_isSome_of_mem fs.files kv hkv)
  · rw [List.all_eq_true]
    intro e he
    rcases hd : e.isDir with _ | _
    · simpa [hd] using (copy_static_creates entries fs e he).2 hd
    · simpa [hd] using (copy_static_creates entries fs e he).1 hd

/-- Witness for C9: one file and one directory copied over an output
tree holding an extraneous file and directory, checked at the
extraneous file's path. -/
theorem copy_static_additive_witness :
    mapFind (copy_static_directory
        [{ relPath := ["img"], isDir := true, content := 0 },
         { relPath := ["img", "a.png"], isDir := false, content := 7 }]
        { files := [(["public", "extra.html"], 3)], dirs := [["public", "old"]] }).files
      ["public", "extra.html"] = mapFind
        ({ files := [(["public", "extra.html"], 3)], dirs := [["public", "old"]] } : OutTree).files
      ["public", "extra.html"] ∧
    (["public", "extra.html"] ∈ (copy_static_directory
        [{ relPath := ["img"], isDir := true, content := 0 },
         { relPath := ["img", "a.png"], isDir := false, content := 7 }]
        { files := [(["public", "extra.html"], 3)], dirs := [["public", "old"]] }).dirs ↔
      ["public", "extra.html"] ∈
        ({ files := [(["public", "extra.html"], 3)], dirs := [["public", "old"]] } : OutTree).dirs) ∧
    (({ files := [(["public", "extra.html"], 3)], dirs := [["public", "old"]] } : OutTree)).dirs.all
      (fun q => decide (q ∈ (copy_static_directory
        [{ relPath := ["img"], isDir := true, content := 0 },
         { relPath := ["img", "a.png"], isDir := false, content := 7 }]
        { files := [(["public", "extra.html"], 3)], dirs := [["public", "old"]] }).dirs)) = true ∧
    (({ files := [(["public", "extra.html"], 3)], dirs := [["public", "old"]] } : OutTree)).files.all
      (fun kv => (mapFind (copy_static_directory
        [{ relPath := ["img"], isDir := true, content := 0 },
         { relPath := ["img", "a.png"], isDir := false, content := 7 }]
        { files := [(["public", "extra.html"], 3)], dirs := [["public", "old"]] }).files kv.1).isSome) = true ∧
    ([{ relPath := ["img"], isDir := true, content := 0 },
      { relPath := ["img", "a.png"], isDir := false, content := 7 }] : List StaticEntry).all
      (fun e =>
        if e.isDir then decide (staticTarget e ∈ (copy_static_directory
          [{ relPath := ["img"], isDir := true, content := 0 },
           { relPath := ["img", "a.png"], isDir := false, content := 7 }]
          { files := [(["public", "extra.html"], 3)], dirs := [["public", "old"]] }).dirs)
        else (mapFind (copy_static_directory
          [{ relPath := ["img"], isDir := true, content := 0 },
           { relPath := ["img", "a.png"], isDir := false, content := 7 }]
          { files := [(["public", "extra.html"], 3)], dirs := [["public", "old"]] }).files
          (staticTarget e)).isSome) = true :=
  copy_static_additive
    [{ relPath := ["img"], isDir := true, content := 0 },
     { relPath := ["img", "a.png"], isDir := false, content := 7 }]
    { files := [(["public", "extra.html"], 3)], dirs := [["public", "old"]] }
    ["public", "extra.html"] (by decide)

end Gutenberg
